import Mathlib

/-!
Verification development for the `findupe` duplicate-file finder.

The Go source (src/main.go, src/args.go) is shallowly embedded here:

* `FileHash`, `CollisionTable` mirror the data model (`CollisionTable` is a
  Go map from fingerprint to path list; we model Go maps as association
  lists with first-occurrence lookup, in-place update and key deletion,
  maintaining unique keys as an invariant).
* `hashData` / `hashRequest` / `hashingWorker` embed the hashing side.  The
  filesystem is an oracle `String → Option (List Nat)` (a successful open
  and full read yields the byte list; any open/read failure is `none`), and
  the two digest algorithms (sha512, md5) are opaque functions from byte
  lists to byte lists; `hex.EncodeToString` is modelled concretely by
  `hexEncode`, and `fmt.Sprintf "%016d"` by `goPad16`.
* `walkFn` / `walkAll` embed the directory-walk callback.  `filepath.Walk`
  may invoke the callback with a nil `os.FileInfo` (when `lstat` fails), so
  the metadata argument is an `Option`; dereferencing it while absent (the
  first statement `info.IsDir()`) is a runtime panic, modelled by a `none`
  result.
* `aggregateStep` / `aggFold` / `aggregateHashes` embed the aggregation
  loop, and `collidingFilesOf` / `duplicatesOf` the derived counters.
-/

/-- FileHash is a response to and request for file hashing
(fields `Pathname`, `Size`, `Hash` as in the Go struct). -/
structure FileHash where
  Pathname : String
  Size : Int
  Hash : String
deriving DecidableEq, Repr

/-- CollisionTable is a dictionary of file-hash to file-list; the Go type
`map[string][]string` is modelled as an association list. -/
abbrev CollisionTable := List (String × List String)

/-- Map lookup `m[k]`: the first entry with key `k`, if any. -/
def getTbl (t : CollisionTable) (k : String) : Option (List String) :=
  match t with
  | [] => none
  | e :: rest => if e.1 = k then some e.2 else getTbl rest k

/-- Map update `m[k] = v`: replace the first entry with key `k`,
or add a new entry when the key is absent. -/
def setTbl (t : CollisionTable) (k : String) (v : List String) : CollisionTable :=
  match t with
  | [] => [(k, v)]
  | e :: rest => if e.1 = k then (k, v) :: rest else e :: setTbl rest k v

/-- Map deletion `delete(m, k)`: remove every entry with key `k`
(with unique keys, the one entry). -/
def delTbl (t : CollisionTable) (k : String) : CollisionTable :=
  match t with
  | [] => []
  | e :: rest => if e.1 = k then delTbl rest k else e :: delTbl rest k

/-- The list of keys of a table. -/
def keysOf (t : CollisionTable) : List String := t.map Prod.fst

/-- Total number of paths stored across all buckets of a table. -/
def totalPathsTbl (t : CollisionTable) : Nat := (t.map (fun e => e.2.length)).sum

/-- Lowercase-hexadecimal character test: a decimal digit or one of
`a`..`f`. -/
def isLowerHexChar (c : Char) : Bool := c.isDigit || ('a' ≤ c && c ≤ 'f')

/-- Model of the Go function `hex.EncodeToString`: every byte becomes two lowercase
hexadecimal characters, high nibble first. -/
def hexEncode (bs : List Nat) : String :=
  String.mk (bs.foldr (fun b acc => Nat.digitChar (b / 16 % 16) :: Nat.digitChar (b % 16) :: acc) [])

/-- Decimal digit characters of `n`, most significant first, via repeated
division by 10; `fuel` bounds the recursion (any `fuel ≥` digit count is
exact). -/
def decDigitsAux (fuel n : Nat) : List Char :=
  match fuel with
  | 0 => []
  | fuel + 1 => if n = 0 then [] else decDigitsAux fuel (n / 10) ++ [Nat.digitChar (n % 10)]

/-- Decimal rendering of a natural number. -/
def decRepr (n : Nat) : String :=
  if n = 0 then "0" else String.mk (decDigitsAux n n)

/-- Left-pad a string with zero characters to width `w`. -/
def zeroPad (w : Nat) (s : String) : String :=
  String.mk (List.replicate (w - s.length) '0') ++ s

/-- Model of `fmt.Sprintf "%016d"` on an `int64`: zero-pad the decimal
rendering to a minimum width of 16 (a sign occupies one column). -/
def goPad16 (n : Int) : String :=
  if n < 0 then "-" ++ zeroPad 15 (decRepr n.natAbs) else zeroPad 16 (decRepr n.natAbs)

/-- Model of `strings.ReplaceAll(s, single-backslash, "/")`: replace every
backslash character with a forward slash. -/
def replaceBackslashes (s : String) : String :=
  String.mk (s.data.map (fun c => if c = '\\' then '/' else c))

/-- hashData executes a hashing algorithm against a file to produce the hash
string.  `fs` is the filesystem oracle (`none` when the open or any read
fails); on success the digest of the content is hex-encoded. -/
def hashData (fs : String → Option (List Nat)) (hasher : List Nat → List Nat)
    (pathname : String) : Option String :=
  (fs pathname).map (fun data => hexEncode (hasher data))

/-- hashRequest generates the hash(es) for an individual file and populates
the response; `none` models the Go `nil` return on digest failure. -/
def hashRequest (thorough : Bool) (fs : String → Option (List Nat))
    (sha512 md5 : List Nat → List Nat) (request : FileHash) : Option FileHash :=
  let pathname := replaceBackslashes request.Pathname
  match hashData fs sha512 pathname with
  | none => none
  | some hashString =>
    match (if thorough then (hashData fs md5 pathname).map (fun m => hashString ++ "." ++ m)
           else some hashString) with
    | none => none
    | some fullHash =>
      some { Pathname := pathname, Size := request.Size,
             Hash := goPad16 request.Size ++ "." ++ fullHash }

/-- hashingWorker dispatches each request to `hashRequest` and forwards the
non-nil replies, in order, continuing past dropped requests. -/
def hashingWorker (thorough : Bool) (fs : String → Option (List Nat))
    (sha512 md5 : List Nat → List Nat) (requests : List FileHash) : List FileHash :=
  match requests with
  | [] => []
  | request :: rest =>
    match hashRequest thorough fs sha512 md5 request with
    | some reply => reply :: hashingWorker thorough fs sha512 md5 rest
    | none => hashingWorker thorough fs sha512 md5 rest

/-- File metadata as delivered by `os.FileInfo`. -/
structure FileInfo where
  isDir : Bool
  size : Int
deriving DecidableEq, Repr

/-- One callback invocation from `filepath.Walk`: the path, the metadata
(`none` models a nil `os.FileInfo`), and the per-entry access error. -/
structure WalkEntry where
  path : String
  info : Option FileInfo
  fileErr : Option String
deriving DecidableEq, Repr

/-- The walker-side mutable state: the three counters and the request
channel contents (in send order). -/
structure WalkState where
  totalFiles : Int
  underSizedFiles : Int
  hashingFiles : Int
  requests : List FileHash
deriving DecidableEq, Repr

/-- The all-zero initial walk state with an empty request channel. -/
def initWalkState : WalkState := ⟨0, 0, 0, []⟩

/-- The clamping of the `--min-bytes` flag performed in `main`:
negative values become 0. -/
def clampMinBytes (b : Int) : Int := if b < 0 then 0 else b

/-- walkFn receives one path from `filepath.Walk` and dispatches it as a
request when eligible.  The result is `none` when the callback panics: the
Go code dereferences `info` (`info.IsDir()`) before looking at `fileErr`,
so a nil `info` is a nil-pointer panic. -/
def walkFn (minBytes : Int) (path : String) (info : Option FileInfo)
    (fileErr : Option String) (st : WalkState) : Option WalkState :=
  match info with
  | none => none
  | some i =>
    if i.isDir then some st
    else
      let st1 : WalkState := { st with totalFiles := st.totalFiles + 1 }
      if fileErr.isSome then some st1
      else if i.size = 0 ∨ i.size < minBytes then
        some { st1 with underSizedFiles := st1.underSizedFiles + 1 }
      else
        let request : FileHash := { Pathname := path, Size := i.size, Hash := "" }
        some { st1 with hashingFiles := st1.hashingFiles + 1, requests := st1.requests ++ [request] }

/-- walkAll runs `walkFn` over a sequence of traversal entries, stopping
with `none` as soon as one invocation panics. -/
def walkAll (minBytes : Int) (entries : List WalkEntry) (st : WalkState) : Option WalkState :=
  match entries with
  | [] => some st
  | e :: rest =>
    match walkFn minBytes e.path e.info e.fileErr st with
    | none => none
    | some st1 => walkAll minBytes rest st1

/-- Number of traversal entries that are non-directory entries delivered
with a per-entry access error (and with metadata present, so that the
callback survives to count them). -/
def errSkips (entries : List WalkEntry) : Nat :=
  entries.countP (fun e =>
    match e.info with
    | some i => !i.isDir && e.fileErr.isSome
    | none => false)

/-- The aggregation state: the `singles` and `collisions` dictionaries of
`aggregateHashes`. -/
structure AggState where
  singles : CollisionTable
  collisions : CollisionTable
deriving DecidableEq, Repr

/-- Both dictionaries start empty. -/
def aggInit : AggState := ⟨[], []⟩

/-- One iteration of the `aggregateHashes` loop body on an incoming
response, exactly as in the Go source: append to an existing collisions
bucket; else promote a matching single together with the new path and
delete the single; else record a new single. -/
def aggregateStep (st : AggState) (response : FileHash) : AggState :=
  match getTbl st.collisions response.Hash with
  | some bucket =>
    { st with collisions := setTbl st.collisions response.Hash (bucket ++ [response.Pathname]) }
  | none =>
    match getTbl st.singles response.Hash with
    | some bucket =>
      { singles := delTbl st.singles response.Hash,
        collisions := setTbl st.collisions response.Hash (bucket ++ [response.Pathname]) }
    | none =>
      { st with singles := setTbl st.singles response.Hash [response.Pathname] }

/-- The three-case decision rule as worded by the specification: if the
fingerprint already has a collisions bucket, append the path to it;
otherwise if the fingerprint is a key of the singles map, the stored path
plus the new path become a new collisions bucket and the fingerprint is
removed from singles; otherwise the path becomes the sole singles entry. -/
def aggregateStepSpec (st : AggState) (response : FileHash) : AggState :=
  if response.Hash ∈ keysOf st.collisions then
    let bucket := (getTbl st.collisions response.Hash).getD [] ++ [response.Pathname]
    { st with collisions := setTbl st.collisions response.Hash bucket }
  else if response.Hash ∈ keysOf st.singles then
    let bucket := (getTbl st.singles response.Hash).getD [] ++ [response.Pathname]
    { singles := delTbl st.singles response.Hash,
      collisions := setTbl st.collisions response.Hash bucket }
  else
    { st with singles := setTbl st.singles response.Hash [response.Pathname] }

/-- The full aggregation loop state after consuming a reply sequence. -/
def aggFold (replies : List FileHash) : AggState :=
  List.foldl aggregateStep aggInit replies

/-- aggregateHashes collects results and buckets filenames together by
hash, returning only the collisions dictionary. -/
def aggregateHashes (replies : List FileHash) : CollisionTable :=
  (aggFold replies).collisions

/-- The `collidingFiles` counter computed after the loop:
`hashingFiles - len(singles)`. -/
def collidingFilesOf (hashingFiles : Int) (st : AggState) : Int :=
  hashingFiles - st.singles.length

/-- The `duplicates` counter computed after the loop:
`collidingFiles - len(collisions)`. -/
def duplicatesOf (hashingFiles : Int) (st : AggState) : Int :=
  collidingFilesOf hashingFiles st - st.collisions.length

/-- The paths of the replies carrying fingerprint `h`, in reply order. -/
def pathsWithHash (h : String) (rs : List FileHash) : List String :=
  (rs.filter (fun r => r.Hash = h)).map FileHash.Pathname

/-- The sequential composition of walker, a single hashing worker and the
aggregator (the deterministic one-worker pipeline). -/
def runPipeline (minBytes : Int) (thorough : Bool) (fs : String → Option (List Nat))
    (sha512 md5 : List Nat → List Nat) (entries : List WalkEntry) :
    Option (WalkState × AggState) :=
  (walkAll minBytes entries initWalkState).map
    (fun ws => (ws, aggFold (hashingWorker thorough fs sha512 md5 ws.requests)))

/-- The structural invariant of the aggregation state: both dictionaries
have unique keys, every singles bucket holds exactly one path, every
collisions bucket holds at least two, and no fingerprint is a key of both
dictionaries at once. -/
def AggInv (st : AggState) : Prop :=
  (keysOf st.singles).Nodup ∧ (keysOf st.collisions).Nodup ∧
  (∀ e ∈ st.singles, e.2.length = 1) ∧ (∀ e ∈ st.collisions, 2 ≤ e.2.length) ∧
  (∀ k, k ∈ keysOf st.singles → k ∉ keysOf st.collisions)

/-! ### Association-table lemmas -/

theorem keysOf_nil : keysOf [] = [] := rfl

theorem keysOf_cons (e : String × List String) (t : CollisionTable) :
    keysOf (e :: t) = e.1 :: keysOf t := rfl

theorem totalPathsTbl_nil : totalPathsTbl [] = 0 := rfl

theorem totalPathsTbl_cons (e : String × List String) (t : CollisionTable) :
    totalPathsTbl (e :: t) = e.2.length + totalPathsTbl t := by
  simp [totalPathsTbl]

theorem getTbl_eq_some_mem {t : CollisionTable} {k : String} {b : List String}
    (h : getTbl t k = some b) : (k, b) ∈ t := by
  induction t with
  | nil => simp [getTbl] at h
  | cons e rest ih =>
    by_cases hk : e.1 = k
    · simp [getTbl, hk] at h
      subst hk
      rw [← h]
      simp
    · simp [getTbl, hk] at h
      right
      exact ih h

theorem getTbl_eq_none_iff {t : CollisionTable} {k : String} :
    getTbl t k = none ↔ k ∉ keysOf t := by
  induction t with
  | nil => simp [getTbl, keysOf]
  | cons e rest ih =>
    by_cases hk : e.1 = k
    · simp [getTbl, hk, keysOf_cons]
    · simp [getTbl, hk, keysOf_cons, ih, Ne.symm hk]

theorem getTbl_setTbl_self (t : CollisionTable) (k : String) (v : List String) :
    getTbl (setTbl t k v) k = some v := by
  induction t with
  | nil => simp [setTbl, getTbl]
  | cons e rest ih =>
    by_cases hk : e.1 = k
    · simp [setTbl, getTbl, hk]
    · simp [setTbl, getTbl, hk, ih]

theorem getTbl_setTbl_ne (t : CollisionTable) (v : List String) {k k' : String}
    (h : k' ≠ k) : getTbl (setTbl t k v) k' = getTbl t k' := by
  induction t with
  | nil => simp [setTbl, getTbl, Ne.symm h]
  | cons e rest ih =>
    by_cases hk : e.1 = k
    · simp [setTbl, getTbl, hk, Ne.symm h, ih]
    · by_cases hk' : e.1 = k'
      · simp [setTbl, getTbl, hk, hk', h]
      · simp [setTbl, getTbl, hk, hk', ih]

theorem mem_setTbl {t : CollisionTable} {k : String} {v : List String}
    {e : String × List String} (h : e ∈ setTbl t k v) : e = (k, v) ∨ e ∈ t := by
  induction t with
  | nil => simpa [setTbl] using h
  | cons f rest ih =>
    by_cases hk : f.1 = k
    · simp [setTbl, hk] at h
      rcases h with h | h
      · left; exact h
      · right; simp [h]
    · simp [setTbl, hk] at h
      rcases h with h | h
      · right; simp [h]
      · rcases ih h with h2 | h2
        · left; exact h2
        · right; simp [h2]

theorem keysOf_setTbl_of_mem (v : List String) {t : CollisionTable} {k : String}
    (h : k ∈ keysOf t) : keysOf (setTbl t k v) = keysOf t := by
  induction t with
  | nil => simp [keysOf] at h
  | cons e rest ih =>
    by_cases hk : e.1 = k
    · simp [setTbl, hk, keysOf_cons]
    · simp [keysOf_cons, Ne.symm hk] at h
      simp [setTbl, hk, keysOf_cons, ih h]

theorem keysOf_setTbl_of_not_mem (v : List String) {t : CollisionTable} {k : String}
    (h : k ∉ keysOf t) : keysOf (setTbl t k v) = keysOf t ++ [k] := by
  induction t with
  | nil => simp [setTbl, keysOf]
  | cons e rest ih =>
    simp [keysOf_cons] at h
    push_neg at h
    simp [setTbl, Ne.symm h.1, keysOf_cons, ih h.2]

theorem mem_delTbl {t : CollisionTable} {k : String} {e : String × List String} :
    e ∈ delTbl t k ↔ e ∈ t ∧ e.1 ≠ k := by
  induction t with
  | nil => simp [delTbl]
  | cons f rest ih =>
    by_cases hk : f.1 = k
    · rw [show delTbl (f :: rest) k = delTbl rest k by simp [delTbl, hk], ih]
      constructor
      · rintro ⟨h1, h2⟩
        exact ⟨List.mem_cons_of_mem f h1, h2⟩
      · rintro ⟨h1, h2⟩
        rcases List.mem_cons.mp h1 with h | h
        · exact absurd (by rw [h]; exact hk) h2
        · exact ⟨h, h2⟩
    · rw [show delTbl (f :: rest) k = f :: delTbl rest k by simp [delTbl, hk]]
      constructor
      · intro h
        rcases List.mem_cons.mp h with h | h
        · exact ⟨by rw [h]; exact List.mem_cons_self f rest, by rw [h]; exact hk⟩
        · exact ⟨List.mem_cons_of_mem f (ih.mp h).1, (ih.mp h).2⟩
      · rintro ⟨h1, h2⟩
        rcases List.mem_cons.mp h1 with h | h
        · rw [h]
          exact List.mem_cons_self f _
        · exact List.mem_cons_of_mem f (ih.mpr ⟨h, h2⟩)

theorem keysOf_delTbl_mem {t : CollisionTable} {k k' : String} :
    k' ∈ keysOf (delTbl t k) ↔ k' ∈ keysOf t ∧ k' ≠ k := by
  constructor
  · intro h
    rcases List.mem_map.mp h with ⟨e, he, hk⟩
    rcases mem_delTbl.mp he with ⟨h1, h2⟩
    subst hk
    exact ⟨List.mem_map.mpr ⟨e, h1, rfl⟩, h2⟩
  · rintro ⟨h1, h2⟩
    rcases List.mem_map.mp h1 with ⟨e, he, hk⟩
    subst hk
    exact List.mem_map.mpr ⟨e, mem_delTbl.mpr ⟨he, h2⟩, rfl⟩

theorem delTbl_sublist (t : CollisionTable) (k : String) : (delTbl t k).Sublist t := by
  induction t with
  | nil => simp [delTbl]
  | cons e rest ih =>
    by_cases hk : e.1 = k
    · simp [delTbl, hk]
      exact ih.trans (List.sublist_cons_self e rest)
    · simpa [delTbl, hk] using ih.cons₂ e

theorem getTbl_delTbl_self (t : CollisionTable) (k : String) :
    getTbl (delTbl t k) k = none := by
  rw [getTbl_eq_none_iff]
  intro h
  exact (keysOf_delTbl_mem.mp h).2 rfl

theorem getTbl_delTbl_ne (t : CollisionTable) {k k' : String} (h : k' ≠ k) :
    getTbl (delTbl t k) k' = getTbl t k' := by
  induction t with
  | nil => simp [delTbl]
  | cons e rest ih =>
    by_cases hk : e.1 = k
    · simp [delTbl, hk, getTbl, Ne.symm h, ih]
    · by_cases hk' : e.1 = k'
      · simp [delTbl, hk, getTbl, hk', h]
      · simp [delTbl, hk, getTbl, hk', ih]

theorem delTbl_of_not_mem {t : CollisionTable} {k : String} (h : k ∉ keysOf t) :
    delTbl t k = t := by
  induction t with
  | nil => simp [delTbl]
  | cons e rest ih =>
    simp [keysOf_cons] at h
    push_neg at h
    simp [delTbl, Ne.symm h.1, ih h.2]

theorem totalPathsTbl_setTbl_of_some (v : List String) {t : CollisionTable}
    {k : String} {b : List String} (h : getTbl t k = some b) :
    totalPathsTbl (setTbl t k v) + b.length = totalPathsTbl t + v.length := by
  induction t with
  | nil => simp [getTbl] at h
  | cons e rest ih =>
    by_cases hk : e.1 = k
    · simp [getTbl, hk] at h
      simp [setTbl, hk, totalPathsTbl_cons, ← h]
      omega
    · simp [getTbl, hk] at h
      simp [setTbl, hk, totalPathsTbl_cons]
      have := ih h
      omega

theorem totalPathsTbl_setTbl_of_none (v : List String) {t : CollisionTable}
    {k : String} (h : getTbl t k = none) :
    totalPathsTbl (setTbl t k v) = totalPathsTbl t + v.length := by
  induction t with
  | nil => simp [setTbl, totalPathsTbl_cons, totalPathsTbl_nil]
  | cons e rest ih =>
    by_cases hk : e.1 = k
    · simp [getTbl, hk] at h
    · simp [getTbl, hk] at h
      simp [setTbl, hk, totalPathsTbl_cons, ih h]
      omega

theorem totalPathsTbl_delTbl {t : CollisionTable} {k : String} {b : List String}
    (hnd : (keysOf t).Nodup) (h : getTbl t k = some b) :
    totalPathsTbl (delTbl t k) + b.length = totalPathsTbl t := by
  induction t with
  | nil => simp [getTbl] at h
  | cons e rest ih =>
    simp [keysOf_cons, List.nodup_cons] at hnd
    by_cases hk : e.1 = k
    · simp [getTbl, hk] at h
      have hkr : k ∉ keysOf rest := by rw [← hk]; exact hnd.1
      simp [delTbl, hk, delTbl_of_not_mem hkr, totalPathsTbl_cons, ← h]
      omega
    · simp [getTbl, hk] at h
      simp [delTbl, hk, totalPathsTbl_cons]
      have := ih hnd.2 h
      omega

theorem totalPathsTbl_eq_length {t : CollisionTable}
    (h : ∀ e ∈ t, e.2.length = 1) : totalPathsTbl t = t.length := by
  induction t with
  | nil => simp [totalPathsTbl_nil]
  | cons e rest ih =>
    rw [totalPathsTbl_cons, h e (by simp), ih (fun f hf => h f (by simp [hf]))]
    simp [Nat.add_comm]

theorem keysOf_nodup_delTbl (k : String) {t : CollisionTable}
    (h : (keysOf t).Nodup) : (keysOf (delTbl t k)).Nodup := by
  exact ((delTbl_sublist t k).map Prod.fst).nodup h

/-! ### Aggregation invariants -/

theorem mem_keysOf_of_getTbl_some {t : CollisionTable} {k : String} {b : List String}
    (h : getTbl t k = some b) : k ∈ keysOf t := by
  by_contra hk
  exact absurd (getTbl_eq_none_iff.mpr hk) (by simp [h])

theorem nodup_append_single {l : List String} {k : String}
    (h : l.Nodup) (hk : k ∉ l) : (l ++ [k]).Nodup :=
  (List.perm_append_singleton k l).symm.nodup (List.nodup_cons.mpr ⟨hk, h⟩)

theorem aggInv_init : AggInv aggInit := by
  refine ⟨by simp [aggInit, keysOf], by simp [aggInit, keysOf], ?_, ?_, ?_⟩ <;>
    simp [aggInit, keysOf]

theorem aggInv_step (st : AggState) (r : FileHash) (h : AggInv st) :
    AggInv (aggregateStep st r) := by
  obtain ⟨hsn, hcn, hs1, hc2, hdisj⟩ := h
  rcases hc : getTbl st.collisions r.Hash with _ | bucket
  · rcases hs : getTbl st.singles r.Hash with _ | bucket
    · -- case 3: new single
      have hns : r.Hash ∉ keysOf st.singles := getTbl_eq_none_iff.mp hs
      have hnc : r.Hash ∉ keysOf st.collisions := getTbl_eq_none_iff.mp hc
      refine ⟨?_, ?_, ?_, ?_, ?_⟩ <;> simp only [aggregateStep, hc, hs]
      · rw [keysOf_setTbl_of_not_mem _ hns]
        exact nodup_append_single hsn hns
      · exact hcn
      · intro e he
        rcases mem_setTbl he with he | he
        · simp [he]
        · exact hs1 e he
      · exact hc2
      · intro k hk
        rw [keysOf_setTbl_of_not_mem _ hns] at hk
        rcases List.mem_append.mp hk with hk | hk
        · exact hdisj k hk
        · simp at hk
          subst hk
          exact hnc
    · -- case 2: promote a single into a collisions bucket
      have hnc : r.Hash ∉ keysOf st.collisions := getTbl_eq_none_iff.mp hc
      refine ⟨?_, ?_, ?_, ?_, ?_⟩ <;> simp only [aggregateStep, hc, hs]
      · exact keysOf_nodup_delTbl _ hsn
      · rw [keysOf_setTbl_of_not_mem _ hnc]
        exact nodup_append_single hcn hnc
      · intro e he
        exact hs1 e (mem_delTbl.mp he).1
      · intro e he
        rcases mem_setTbl he with he | he
        · have h1 : bucket.length = 1 := hs1 _ (getTbl_eq_some_mem hs)
          simp [he, h1]
        · exact hc2 e he
      · intro k hk
        rcases keysOf_delTbl_mem.mp hk with ⟨hk1, hk2⟩
        rw [keysOf_setTbl_of_not_mem _ hnc]
        intro hmem
        rcases List.mem_append.mp hmem with hm | hm
        · exact hdisj k hk1 hm
        · simp at hm
          exact hk2 hm
  · -- case 1: append to an existing collisions bucket
    have hmem : r.Hash ∈ keysOf st.collisions := mem_keysOf_of_getTbl_some hc
    refine ⟨?_, ?_, ?_, ?_, ?_⟩ <;> simp only [aggregateStep, hc]
    · exact hsn
    · rw [keysOf_setTbl_of_mem _ hmem]
      exact hcn
    · exact hs1
    · intro e he
      rcases mem_setTbl he with he | he
      · have h2 : 2 ≤ bucket.length := hc2 _ (getTbl_eq_some_mem hc)
        simp [he]
        omega
      · exact hc2 e he
    · intro k hk
      rw [keysOf_setTbl_of_mem _ hmem]
      exact hdisj k hk

theorem aggCount_step (st : AggState) (r : FileHash) (h : AggInv st) :
    totalPathsTbl (aggregateStep st r).singles + totalPathsTbl (aggregateStep st r).collisions
      = totalPathsTbl st.singles + totalPathsTbl st.collisions + 1 := by
  obtain ⟨hsn, _, _, _, _⟩ := h
  rcases hc : getTbl st.collisions r.Hash with _ | bucket
  · rcases hs : getTbl st.singles r.Hash with _ | bucket
    · simp only [aggregateStep, hc, hs]
      have := totalPathsTbl_setTbl_of_none [r.Pathname] hs
      simp [this]
      omega
    · simp only [aggregateStep, hc, hs]
      have h1 := totalPathsTbl_delTbl hsn hs
      have h2 := totalPathsTbl_setTbl_of_none (bucket ++ [r.Pathname]) hc
      simp [h2, List.length_append] at *
      omega
  · simp only [aggregateStep, hc]
    have h1 := totalPathsTbl_setTbl_of_some (bucket ++ [r.Pathname]) hc
    simp [List.length_append] at h1
    omega

theorem aggInv_foldl (rs : List FileHash) :
    ∀ st : AggState, AggInv st → AggInv (List.foldl aggregateStep st rs) := by
  induction rs with
  | nil => intro st h; simpa using h
  | cons r rest ih =>
    intro st h
    simpa using ih (aggregateStep st r) (aggInv_step st r h)

theorem aggInv_aggFold (rs : List FileHash) : AggInv (aggFold rs) :=
  aggInv_foldl rs aggInit aggInv_init

theorem aggCount_foldl (rs : List FileHash) :
    ∀ st : AggState, AggInv st →
      totalPathsTbl (List.foldl aggregateStep st rs).singles
        + totalPathsTbl (List.foldl aggregateStep st rs).collisions
      = totalPathsTbl st.singles + totalPathsTbl st.collisions + rs.length := by
  induction rs with
  | nil => intro st h; simp
  | cons r rest ih =>
    intro st h
    have h1 := ih (aggregateStep st r) (aggInv_step st r h)
    have h2 := aggCount_step st r h
    simp only [List.foldl_cons] at *
    rw [h1, h2]
    simp [List.length_cons]
    omega

theorem aggCount_aggFold (rs : List FileHash) :
    totalPathsTbl (aggFold rs).singles + totalPathsTbl (aggFold rs).collisions = rs.length := by
  have := aggCount_foldl rs aggInit aggInv_init
  simpa [aggFold, aggInit, totalPathsTbl_nil] using this

/-! ### Pointwise characterization of the aggregation fold -/

theorem pathsWithHash_nil (h : String) : pathsWithHash h [] = [] := rfl

theorem pathsWithHash_append_single (h : String) (rs : List FileHash) (r : FileHash) :
    pathsWithHash h (rs ++ [r])
      = pathsWithHash h rs ++ (if r.Hash = h then [r.Pathname] else []) := by
  by_cases hr : r.Hash = h <;> simp [pathsWithHash, List.filter_append, hr]

theorem aggFold_append_single (rs : List FileHash) (r : FileHash) :
    aggFold (rs ++ [r]) = aggregateStep (aggFold rs) r := by
  simp [aggFold, List.foldl_append]

theorem agg_char (rs : List FileHash) (h : String) :
    getTbl (aggFold rs).collisions h
      = (if 2 ≤ (pathsWithHash h rs).length then some (pathsWithHash h rs) else none)
    ∧ getTbl (aggFold rs).singles h
      = (if (pathsWithHash h rs).length = 1 then some (pathsWithHash h rs) else none) := by
  induction rs using List.reverseRecOn with
  | nil => simp [aggFold, aggInit, getTbl, pathsWithHash_nil]
  | append_singleton rs r ih =>
    obtain ⟨ihc, ihs⟩ := ih
    rw [aggFold_append_single, pathsWithHash_append_single]
    by_cases hr : r.Hash = h
    · subst hr
      rw [if_pos rfl]
      by_cases h2 : 2 ≤ (pathsWithHash r.Hash rs).length
      · have hc : getTbl (aggFold rs).collisions r.Hash = some (pathsWithHash r.Hash rs) := by
          rw [ihc, if_pos h2]
        have hs : getTbl (aggFold rs).singles r.Hash = none := by
          rw [ihs, if_neg (by omega)]
        simp only [aggregateStep, hc]
        constructor
        · rw [getTbl_setTbl_self,
            if_pos (by simp only [List.length_append, List.length_cons, List.length_nil]; omega)]
        · rw [hs,
            if_neg (by simp only [List.length_append, List.length_cons, List.length_nil]; omega)]
      · by_cases h1 : (pathsWithHash r.Hash rs).length = 1
        · have hc : getTbl (aggFold rs).collisions r.Hash = none := by
            rw [ihc, if_neg h2]
          have hs : getTbl (aggFold rs).singles r.Hash = some (pathsWithHash r.Hash rs) := by
            rw [ihs, if_pos h1]
          simp only [aggregateStep, hc, hs]
          constructor
          · rw [getTbl_setTbl_self,
              if_pos (by simp only [List.length_append, List.length_cons, List.length_nil]; omega)]
          · rw [getTbl_delTbl_self,
              if_neg (by simp only [List.length_append, List.length_cons, List.length_nil]; omega)]
        · have h0 : (pathsWithHash r.Hash rs).length = 0 := by omega
          have hq : pathsWithHash r.Hash rs = [] := List.length_eq_zero.mp h0
          have hc : getTbl (aggFold rs).collisions r.Hash = none := by
            rw [ihc, if_neg h2]
          have hs : getTbl (aggFold rs).singles r.Hash = none := by
            rw [ihs, if_neg h1]
          simp only [aggregateStep, hc, hs]
          constructor
          · rw [hq]
            simp
          · rw [getTbl_setTbl_self, hq]
            simp
    · have hne : h ≠ r.Hash := fun hh => hr hh.symm
      rw [if_neg hr]
      have hstep : getTbl (aggregateStep (aggFold rs) r).collisions h
            = getTbl (aggFold rs).collisions h
          ∧ getTbl (aggregateStep (aggFold rs) r).singles h
            = getTbl (aggFold rs).singles h := by
        rcases hc : getTbl (aggFold rs).collisions r.Hash with _ | bucket
        · rcases hs : getTbl (aggFold rs).singles r.Hash with _ | bucket
          · constructor
            · simp only [aggregateStep, hc, hs]
            · simp only [aggregateStep, hc, hs]
              exact getTbl_setTbl_ne _ _ hne
          · constructor
            · simp only [aggregateStep, hc, hs]
              exact getTbl_setTbl_ne _ _ hne
            · simp only [aggregateStep, hc, hs]
              exact getTbl_delTbl_ne _ hne
        · constructor
          · simp only [aggregateStep, hc]
            exact getTbl_setTbl_ne _ _ hne
          · simp only [aggregateStep, hc]
      rw [hstep.1, hstep.2, ihc, ihs]
      simp

/-! ### Hex and decimal rendering lemmas -/

theorem length_string_mk (l : List Char) : (String.mk l).length = l.length := rfl

theorem data_string_mk (l : List Char) : (String.mk l).data = l := rfl

theorem isLowerHexChar_digitChar {d : Nat} (h : d < 16) :
    isLowerHexChar (Nat.digitChar d) = true := by
  interval_cases d <;> decide

theorem hexEncode_lowerHex (bs : List Nat) :
    ∀ c ∈ (hexEncode bs).data, isLowerHexChar c = true := by
  induction bs with
  | nil => simp [hexEncode, data_string_mk]
  | cons b rest ih =>
    intro c hc
    simp only [hexEncode, data_string_mk, List.foldr_cons, List.mem_cons] at hc
    rcases hc with hc | hc | hc
    · rw [hc]
      exact isLowerHexChar_digitChar (Nat.mod_lt _ (by norm_num))
    · rw [hc]
      exact isLowerHexChar_digitChar (Nat.mod_lt _ (by norm_num))
    · exact ih c hc

theorem digitChar_isDigit {d : Nat} (h : d < 10) : (Nat.digitChar d).isDigit = true := by
  interval_cases d <;> decide

theorem decDigitsAux_digits (fuel : Nat) :
    ∀ n c, c ∈ decDigitsAux fuel n → ∃ d, d < 10 ∧ c = Nat.digitChar d := by
  induction fuel with
  | zero => intro n c hc; simp [decDigitsAux] at hc
  | succ fuel ih =>
    intro n c hc
    by_cases hn : n = 0
    · simp [decDigitsAux, hn] at hc
    · simp only [decDigitsAux, if_neg hn, List.mem_append, List.mem_singleton] at hc
      rcases hc with hc | hc
      · exact ih _ _ hc
      · exact ⟨n % 10, Nat.mod_lt _ (by norm_num), hc⟩

theorem decDigitsAux_length_le (fuel : Nat) :
    ∀ k n, n < 10 ^ k → (decDigitsAux fuel n).length ≤ k := by
  induction fuel with
  | zero => intro k n _; simp [decDigitsAux]
  | succ fuel ih =>
    intro k n hn
    by_cases h0 : n = 0
    · simp [decDigitsAux, h0]
    · have hk : k ≠ 0 := by
        intro hk0
        rw [hk0, pow_zero] at hn
        omega
      obtain ⟨k1, rfl⟩ : ∃ k1, k = k1 + 1 := ⟨k - 1, by omega⟩
      have hdiv : n / 10 < 10 ^ k1 := by
        rw [Nat.div_lt_iff_lt_mul (by norm_num)]
        calc n < 10 ^ (k1 + 1) := hn
        _ = 10 ^ k1 * 10 := by ring
      have := ih k1 (n / 10) hdiv
      simp only [decDigitsAux, if_neg h0, List.length_append, List.length_cons, List.length_nil]
      omega

theorem decRepr_length_le {n : Nat} (h : n < 10 ^ 16) : (decRepr n).length ≤ 16 := by
  by_cases h0 : n = 0
  · subst h0
    decide
  · simp only [decRepr, if_neg h0, length_string_mk]
    exact decDigitsAux_length_le n 16 n h

theorem decRepr_digits (n : Nat) : ∀ c ∈ (decRepr n).data, c.isDigit = true := by
  intro c hc
  by_cases h0 : n = 0
  · subst h0
    have : decRepr 0 = "0" := rfl
    rw [this] at hc
    have h1 : ("0" : String).data = ['0'] := rfl
    rw [h1] at hc
    simp at hc
    rw [hc]
    decide
  · simp only [decRepr, if_neg h0, data_string_mk] at hc
    obtain ⟨d, hd, rfl⟩ := decDigitsAux_digits n n c hc
    exact digitChar_isDigit hd

theorem goPad16_digit16 {n : Int} (h0 : 0 ≤ n) (h16 : n < 10 ^ 16) :
    (goPad16 n).length = 16 ∧ ∀ c ∈ (goPad16 n).data, c.isDigit = true := by
  have hneg : ¬ n < 0 := by omega
  have hna : n.natAbs < 10 ^ 16 := by
    have : (10 : Int) ^ 16 = ((10 ^ 16 : Nat) : Int) := by norm_num
    rw [this] at h16
    omega
  have hlen := decRepr_length_le hna
  constructor
  · simp only [goPad16, if_neg hneg, zeroPad, String.length_append, length_string_mk,
      List.length_replicate]
    omega
  · intro c hc
    simp only [goPad16, if_neg hneg, zeroPad, String.data_append, data_string_mk,
      List.mem_append] at hc
    rcases hc with hc | hc
    · rw [List.eq_of_mem_replicate hc]
      decide
    · exact decRepr_digits _ c hc

/-! ### Claim C4: shape of a successfully completed request -/

/-- Claim C4: whenever `hashRequest` completes successfully, the result is the
request with its pathname backslash-normalized, its size unchanged, and its
hash equal to the zero-padded decimal size, a dot, the lowercase-hex
primary digest and — exactly when thorough mode is set — a further dot and
the lowercase-hex secondary digest; a non-negative size below 10^16 pads to
exactly 16 decimal digits. -/
theorem hashRequest_result_spec (thorough : Bool) (fs : String → Option (List Nat))
    (sha512 md5 : List Nat → List Nat) (req res : FileHash)
    (h : hashRequest thorough fs sha512 md5 req = some res) :
    res.Pathname = replaceBackslashes req.Pathname
    ∧ res.Size = req.Size
    ∧ (∃ data, fs (replaceBackslashes req.Pathname) = some data
        ∧ ((thorough = false
              ∧ res.Hash = goPad16 req.Size ++ "." ++ hexEncode (sha512 data))
           ∨ (thorough = true
              ∧ res.Hash = goPad16 req.Size ++ "." ++ hexEncode (sha512 data)
                  ++ "." ++ hexEncode (md5 data)))
        ∧ (∀ c ∈ (hexEncode (sha512 data)).data, isLowerHexChar c = true)
        ∧ (∀ c ∈ (hexEncode (md5 data)).data, isLowerHexChar c = true))
    ∧ (0 ≤ req.Size → req.Size < 10 ^ 16 →
        (goPad16 req.Size).length = 16 ∧ ∀ c ∈ (goPad16 req.Size).data, c.isDigit = true) := by
  rcases hfs : fs (replaceBackslashes req.Pathname) with _ | data
  · exfalso
    simp [hashRequest, hashData, hfs] at h
  · cases thorough
    · have hval : hashRequest false fs sha512 md5 req
          = some { Pathname := replaceBackslashes req.Pathname, Size := req.Size,
                   Hash := goPad16 req.Size ++ "." ++ hexEncode (sha512 data) } := by
        simp [hashRequest, hashData, hfs]
      rw [hval] at h
      obtain rfl : res = _ := (Option.some.inj h).symm
      refine ⟨rfl, rfl, ⟨data, rfl, Or.inl ⟨rfl, rfl⟩, hexEncode_lowerHex _, hexEncode_lowerHex _⟩, ?_⟩
      intro ha hb
      exact goPad16_digit16 ha hb
    · have hval : hashRequest true fs sha512 md5 req
          = some { Pathname := replaceBackslashes req.Pathname, Size := req.Size,
                   Hash := goPad16 req.Size ++ "." ++ (hexEncode (sha512 data) ++ "." ++ hexEncode (md5 data)) } := by
        simp [hashRequest, hashData, hfs]
      rw [hval] at h
      obtain rfl : res = _ := (Option.some.inj h).symm
      refine ⟨rfl, rfl, ⟨data, rfl, Or.inr ⟨rfl, ?_⟩, hexEncode_lowerHex _, hexEncode_lowerHex _⟩, ?_⟩
      · simp [String.append_assoc]
      · intro ha hb
        exact goPad16_digit16 ha hb

/-- Witness for C4 at a concrete request: thorough mode on, an identity
primary hasher and a duplicating secondary hasher over content `[0, 1]`. -/
theorem hashRequest_result_spec_witness :
    hashRequest true (fun _ => some [0, 1]) id (fun d => d ++ d) ⟨"a\\b", 3, ""⟩
        = some ⟨"a/b", 3, "0000000000000003.0001.00010001"⟩
    ∧ (FileHash.mk "a/b" 3 "0000000000000003.0001.00010001").Pathname
        = replaceBackslashes (FileHash.mk "a\\b" 3 "").Pathname
    ∧ (FileHash.mk "a/b" 3 "0000000000000003.0001.00010001").Size
        = (FileHash.mk "a\\b" 3 "").Size
    ∧ (goPad16 (FileHash.mk "a\\b" 3 "").Size).length = 16 := by
  have H := hashRequest_result_spec true (fun _ => some [0, 1]) id (fun d => d ++ d)
    ⟨"a\\b", 3, ""⟩ ⟨"a/b", 3, "0000000000000003.0001.00010001"⟩ rfl
  exact ⟨rfl, H.1, H.2.1, (H.2.2.2 (by decide) (by decide)).1⟩

/-! ### Claims C1, C2, C3, C10: the aggregator -/

/-- Claim C1: the CollisionTable never binds a key to fewer than two paths —
neither in the collisions table reached after any prefix of the insertion
steps nor in the final table returned by `aggregateHashes`. -/
theorem collision_buckets_ge_two (rs : List FileHash) (n : Nat) (k : String) (b : List String) :
    (getTbl (aggFold (rs.take n)).collisions k = some b → 2 ≤ b.length)
    ∧ (getTbl (aggregateHashes rs) k = some b → 2 ≤ b.length) := by
  constructor
  · intro h
    obtain ⟨_, _, _, hc2, _⟩ := aggInv_aggFold (rs.take n)
    exact hc2 _ (getTbl_eq_some_mem h)
  · intro h
    obtain ⟨_, _, _, hc2, _⟩ := aggInv_aggFold rs
    exact hc2 _ (getTbl_eq_some_mem h)

/-- Witness for C1: two replies with the same fingerprint produce a
two-path bucket. -/
theorem collision_buckets_ge_two_witness :
    getTbl (aggregateHashes [⟨"a", 1, "h"⟩, ⟨"b", 1, "h"⟩]) "h" = some ["a", "b"]
    ∧ 2 ≤ (["a", "b"] : List String).length :=
  ⟨rfl, (collision_buckets_ge_two [⟨"a", 1, "h"⟩, ⟨"b", 1, "h"⟩] 2 "h" ["a", "b"]).2 rfl⟩

/-- Claim C2: the loop body of the aggregator coincides, on every state and incoming
result, with the three-case decision rule as worded by the specification
(`aggregateStepSpec`). -/
theorem aggregateStep_matches_rule (st : AggState) (r : FileHash) :
    aggregateStep st r = aggregateStepSpec st r := by
  rcases hc : getTbl st.collisions r.Hash with _ | bucket
  · rcases hs : getTbl st.singles r.Hash with _ | bucket
    · have h1 : r.Hash ∉ keysOf st.collisions := getTbl_eq_none_iff.mp hc
      have h2 : r.Hash ∉ keysOf st.singles := getTbl_eq_none_iff.mp hs
      simp [aggregateStep, aggregateStepSpec, hc, hs, h1, h2]
    · have h1 : r.Hash ∉ keysOf st.collisions := getTbl_eq_none_iff.mp hc
      have h2 : r.Hash ∈ keysOf st.singles := mem_keysOf_of_getTbl_some hs
      simp [aggregateStep, aggregateStepSpec, hc, hs, h1, h2]
  · have h1 : r.Hash ∈ keysOf st.collisions := mem_keysOf_of_getTbl_some hc
    simp [aggregateStep, aggregateStepSpec, hc, h1]

/-- Characterization of the final table through `aggregateHashes`: a key is
bound exactly when at least two replies carry it, and then to all their
paths in arrival order. -/
theorem aggregateHashes_char (rs : List FileHash) (h : String) :
    getTbl (aggregateHashes rs) h
      = (if 2 ≤ (pathsWithHash h rs).length then some (pathsWithHash h rs) else none) := by
  simp only [aggregateHashes]
  exact (agg_char rs h).1

/-- Claim C3: aggregating two permutations of the same reply sequence yields
collision tables with the same key set and, for each common key, buckets
holding the same set of paths (indeed permutations of one another). -/
theorem aggregate_perm_invariant (rs1 rs2 : List FileHash) (hp : rs1.Perm rs2) :
    (∀ k, k ∈ keysOf (aggregateHashes rs1) ↔ k ∈ keysOf (aggregateHashes rs2))
    ∧ (∀ k b1 b2, getTbl (aggregateHashes rs1) k = some b1 →
        getTbl (aggregateHashes rs2) k = some b2 →
        (∀ p, p ∈ b1 ↔ p ∈ b2) ∧ b1.Perm b2) := by
  have hperm : ∀ k, (pathsWithHash k rs1).Perm (pathsWithHash k rs2) :=
    fun k => (hp.filter _).map _
  have hlen : ∀ k, (pathsWithHash k rs1).length = (pathsWithHash k rs2).length :=
    fun k => (hperm k).length_eq
  constructor
  · intro k
    constructor
    · intro hk
      have h2 : 2 ≤ (pathsWithHash k rs1).length := by
        by_contra hn
        have : getTbl (aggregateHashes rs1) k = none := by
          rw [aggregateHashes_char, if_neg hn]
        exact getTbl_eq_none_iff.mp this hk
      have h2' : 2 ≤ (pathsWithHash k rs2).length := by rw [← hlen k]; exact h2
      exact mem_keysOf_of_getTbl_some (b := pathsWithHash k rs2)
        (by rw [aggregateHashes_char, if_pos h2'])
    · intro hk
      have h2 : 2 ≤ (pathsWithHash k rs2).length := by
        by_contra hn
        have : getTbl (aggregateHashes rs2) k = none := by
          rw [aggregateHashes_char, if_neg hn]
        exact getTbl_eq_none_iff.mp this hk
      have h2' : 2 ≤ (pathsWithHash k rs1).length := by rw [hlen k]; exact h2
      exact mem_keysOf_of_getTbl_some (b := pathsWithHash k rs1)
        (by rw [aggregateHashes_char, if_pos h2'])
  · intro k b1 b2 hb1 hb2
    rw [aggregateHashes_char] at hb1 hb2
    by_cases h2 : 2 ≤ (pathsWithHash k rs1).length
    · rw [if_pos h2] at hb1
      have h2' : 2 ≤ (pathsWithHash k rs2).length := by rw [← hlen k]; exact h2
      rw [if_pos h2'] at hb2
      obtain rfl : b1 = pathsWithHash k rs1 := (Option.some.inj hb1).symm
      obtain rfl : b2 = pathsWithHash k rs2 := (Option.some.inj hb2).symm
      exact ⟨fun p => (hperm k).mem_iff, hperm k⟩
    · rw [if_neg h2] at hb1
      cases hb1

/-- Witness for C3: the two arrival orders of the same two replies give
buckets that are permutations carrying the same path set. -/
theorem aggregate_perm_invariant_witness :
    ([⟨"a", 1, "h"⟩, ⟨"b", 1, "h"⟩] : List FileHash).Perm [⟨"b", 1, "h"⟩, ⟨"a", 1, "h"⟩]
    ∧ ("a" ∈ (["a", "b"] : List String) ↔ "a" ∈ (["b", "a"] : List String))
    ∧ (["a", "b"] : List String).Perm ["b", "a"] := by
  have H := (aggregate_perm_invariant [⟨"a", 1, "h"⟩, ⟨"b", 1, "h"⟩]
    [⟨"b", 1, "h"⟩, ⟨"a", 1, "h"⟩] (by decide)).2 "h" ["a", "b"] ["b", "a"] rfl rfl
  exact ⟨by decide, H.1 "a", H.2⟩

/-- Claim C10: at every step of the aggregation (after any prefix of insertions)
the singles and collisions key sets are disjoint and every singles entry
holds exactly one path. -/
theorem singles_collisions_disjoint (rs : List FileHash) (n : Nat) :
    (∀ k, k ∈ keysOf (aggFold (rs.take n)).singles
        → k ∉ keysOf (aggFold (rs.take n)).collisions)
    ∧ (∀ e ∈ (aggFold (rs.take n)).singles, e.2.length = 1) := by
  obtain ⟨_, _, hs1, _, hdisj⟩ := aggInv_aggFold (rs.take n)
  exact ⟨hdisj, hs1⟩

/-- Witness for C10: after one insertion the lone fingerprint sits in
singles and not in collisions. -/
theorem singles_collisions_disjoint_witness :
    "h" ∈ keysOf (aggFold (([⟨"a", 1, "h"⟩] : List FileHash).take 1)).singles
    ∧ "h" ∉ keysOf (aggFold (([⟨"a", 1, "h"⟩] : List FileHash).take 1)).collisions :=
  ⟨by decide, (singles_collisions_disjoint [⟨"a", 1, "h"⟩] 1).1 "h" (by decide)⟩

/-! ### Claims C5, C7, C9: the walker -/

theorem requests_ne_self_append {l : List FileHash} {r : FileHash} :
    ¬ l = l ++ [r] := by
  intro h
  have := congrArg List.length h
  simp at this

/-- Claim C5: with the clamped minimum-byte threshold, a call of the walk
callback on an entry with metadata enqueues a request exactly when the
entry is a non-directory, has no access error, and its size is positive and
at least the threshold; an entry failing only the size test bumps the
undersized counter instead, and a zero-byte file is never enqueued. -/
theorem walkFn_enqueue_iff (mb : Int) (path : String) (i : FileInfo) (fe : Option String)
    (st st' : WalkState) (h : walkFn (clampMinBytes mb) path (some i) fe st = some st') :
    ((st'.requests = st.requests ++ [⟨path, i.size, ""⟩])
        ↔ (i.isDir = false ∧ fe = none ∧ 0 < i.size ∧ clampMinBytes mb ≤ i.size))
    ∧ ((st'.underSizedFiles = st.underSizedFiles + 1)
        ↔ (i.isDir = false ∧ fe = none ∧ ¬(0 < i.size ∧ clampMinBytes mb ≤ i.size)))
    ∧ (i.size = 0 → st'.requests = st.requests) := by
  have hmb : 0 ≤ clampMinBytes mb := by
    simp only [clampMinBytes]
    split <;> omega
  cases hdir : i.isDir
  · cases hfe : fe
    · by_cases hsz : i.size = 0 ∨ i.size < clampMinBytes mb
      · have hval : walkFn (clampMinBytes mb) path (some i) none st
            = some ⟨st.totalFiles + 1, st.underSizedFiles + 1, st.hashingFiles, st.requests⟩ := by
          simp [walkFn, hdir, hsz]
        rw [hfe] at h
        rw [hval] at h
        obtain rfl : st' = _ := (Option.some.inj h).symm
        refine ⟨?_, ?_, fun _ => rfl⟩
        · constructor
          · intro hreq
            exact absurd hreq requests_ne_self_append
          · rintro ⟨-, -, hpos, hge⟩
            exfalso
            omega
        · constructor
          · intro _
            exact ⟨rfl, rfl, by omega⟩
          · intro _
            rfl
      · have hval : walkFn (clampMinBytes mb) path (some i) none st
            = some ⟨st.totalFiles + 1, st.underSizedFiles, st.hashingFiles + 1, st.requests ++ [⟨path, i.size, ""⟩]⟩ := by
          simp [walkFn, hdir, hsz]
        rw [hfe] at h
        rw [hval] at h
        obtain rfl : st' = _ := (Option.some.inj h).symm
        push_neg at hsz
        refine ⟨?_, ?_, ?_⟩
        · constructor
          · intro _
            exact ⟨rfl, rfl, by omega, by omega⟩
          · intro _
            rfl
        · constructor
          · intro habs
            simp at habs
          · rintro ⟨-, -, hno⟩
            exact absurd ⟨by omega, by omega⟩ hno
        · intro h0
          exact absurd h0 hsz.1
    · have hval : walkFn (clampMinBytes mb) path (some i) fe st
          = some ⟨st.totalFiles + 1, st.underSizedFiles, st.hashingFiles, st.requests⟩ := by
        simp [walkFn, hdir, hfe]
      rw [hval] at h
      obtain rfl : st' = _ := (Option.some.inj h).symm
      refine ⟨?_, ?_, fun _ => rfl⟩
      · constructor
        · intro hreq
          exact absurd hreq requests_ne_self_append
        · rintro ⟨-, hfe2, -⟩
          cases hfe2
      · constructor
        · intro habs
          simp at habs
        · rintro ⟨-, hfe2, -⟩
          cases hfe2
  · have hval : walkFn (clampMinBytes mb) path (some i) fe st = some st := by
      simp [walkFn, hdir]
    rw [hval] at h
    obtain rfl : st' = st := (Option.some.inj h).symm
    refine ⟨?_, ?_, fun _ => rfl⟩
    · constructor
      · intro hreq
        exact absurd hreq requests_ne_self_append
      · rintro ⟨hd, -, -⟩
        cases hd
    · constructor
      · intro habs
        simp at habs
      · rintro ⟨hd, -, -⟩
        cases hd

/-- Witness for C5: a 300-byte regular file against the default threshold
256 is enqueued. -/
theorem walkFn_enqueue_iff_witness :
    walkFn (clampMinBytes 256) "p" (some ⟨false, 300⟩) none initWalkState
        = some ⟨1, 0, 1, [⟨"p", 300, ""⟩]⟩
    ∧ ((WalkState.mk 1 0 1 [⟨"p", 300, ""⟩]).requests
        = initWalkState.requests ++ [⟨"p", (FileInfo.mk false 300).size, ""⟩]
      ↔ ((FileInfo.mk false 300).isDir = false ∧ (none : Option String) = none
          ∧ 0 < (FileInfo.mk false 300).size
          ∧ clampMinBytes 256 ≤ (FileInfo.mk false 300).size)) := by
  have H := walkFn_enqueue_iff 256 "p" ⟨false, 300⟩ none initWalkState
    ⟨1, 0, 1, [⟨"p", 300, ""⟩]⟩ (by decide)
  exact ⟨by decide, H.1⟩

/-- Helper for C7: over any panic-free run of the walk callback, the
quantity totalFiles minus underSizedFiles minus hashingFiles grows by
exactly the number of non-directory entries skipped for an access error. -/
theorem walkAll_counter_delta (mb : Int) (entries : List WalkEntry) :
    ∀ st st', walkAll mb entries st = some st' →
      st'.totalFiles - st'.underSizedFiles - st'.hashingFiles
        = st.totalFiles - st.underSizedFiles - st.hashingFiles + errSkips entries := by
  induction entries with
  | nil =>
    intro st st' h
    simp [walkAll] at h
    subst h
    simp [errSkips]
  | cons e rest ih =>
    intro st st' h
    simp only [walkAll] at h
    rcases hw : walkFn mb e.path e.info e.fileErr st with _ | st1
    · rw [hw] at h
      cases h
    · rw [hw] at h
      have hrest := ih st1 st' h
      rcases e with ⟨path, info, fe⟩
      rcases info with _ | i
      · simp [walkFn] at hw
      · cases hdir : i.isDir
        · cases hfe : fe
          · rw [hfe] at hw
            by_cases hsz : i.size = 0 ∨ i.size < mb
            · have hval : walkFn mb path (some i) none st
                  = some ⟨st.totalFiles + 1, st.underSizedFiles + 1, st.hashingFiles, st.requests⟩ := by
                simp [walkFn, hdir, hsz]
              rw [hval] at hw
              obtain rfl : st1 = _ := (Option.some.inj hw).symm
              simp only [errSkips, List.countP_cons, hdir, hfe] at *
              simp at hrest ⊢
              omega
            · have hval : walkFn mb path (some i) none st
                  = some ⟨st.totalFiles + 1, st.underSizedFiles, st.hashingFiles + 1, st.requests ++ [⟨path, i.size, ""⟩]⟩ := by
                simp [walkFn, hdir, hsz]
              rw [hval] at hw
              obtain rfl : st1 = _ := (Option.some.inj hw).symm
              simp only [errSkips, List.countP_cons, hdir, hfe] at *
              simp at hrest ⊢
              omega
          · rw [hfe] at hw
            rw [show walkFn mb path (some i) (some _) st
                = some ⟨st.totalFiles + 1, st.underSizedFiles, st.hashingFiles, st.requests⟩
              from by simp [walkFn, hdir]] at hw
            obtain rfl : st1 = _ := (Option.some.inj hw).symm
            simp only [errSkips, List.countP_cons, hdir, hfe] at *
            simp at hrest ⊢
            omega
        · have hval : walkFn mb path (some i) fe st = some st := by
            simp [walkFn, hdir]
          rw [hval] at hw
          obtain rfl : st1 = st := (Option.some.inj hw).symm
          simp only [errSkips, List.countP_cons, hdir] at *
          simp at hrest ⊢
          omega

/-- Claim C7: at the end of any panic-free scan started from zeroed counters,
totalFiles equals underSizedFiles plus hashingFiles plus the number of
non-directory entries skipped because of a per-entry access error. -/
theorem walk_counter_equation (mb : Int) (entries : List WalkEntry) (st' : WalkState)
    (h : walkAll mb entries initWalkState = some st') :
    st'.totalFiles = st'.underSizedFiles + st'.hashingFiles + errSkips entries := by
  have hd := walkAll_counter_delta mb entries initWalkState st' h
  simp [initWalkState] at hd
  omega

/-- Witness for C7 on a four-entry traversal: a directory, an
access-error file, an undersized file and a hashed file give
totalFiles 3 = 1 + 1 + 1. -/
theorem walk_counter_equation_witness :
    walkAll 256 [⟨"d", some ⟨true, 0⟩, none⟩, ⟨"e", some ⟨false, 5⟩, some "eperm"⟩,
        ⟨"s", some ⟨false, 1⟩, none⟩, ⟨"f", some ⟨false, 300⟩, none⟩] initWalkState
      = some ⟨3, 1, 1, [⟨"f", 300, ""⟩]⟩
    ∧ (WalkState.mk 3 1 1 [⟨"f", 300, ""⟩]).totalFiles
      = (WalkState.mk 3 1 1 [⟨"f", 300, ""⟩]).underSizedFiles
        + (WalkState.mk 3 1 1 [⟨"f", 300, ""⟩]).hashingFiles
        + errSkips [⟨"d", some ⟨true, 0⟩, none⟩, ⟨"e", some ⟨false, 5⟩, some "eperm"⟩,
            ⟨"s", some ⟨false, 1⟩, none⟩, ⟨"f", some ⟨false, 300⟩, none⟩] := by
  constructor
  · decide
  · exact walk_counter_equation 256 _ _ (by decide)

/-- Claim C9, behaviour at the failing input: when `filepath.Walk` delivers an
entry with an access error and no metadata (a nil `os.FileInfo`, as happens
whenever `lstat` fails on a non-root entry), the callback does not return
normally: it dereferences the nil info and panics, counting nothing and
killing the pipeline. -/
theorem walkFn_nil_info_panics (mb : Int) (path : String) (errMsg : String) (st : WalkState) :
    walkFn mb path none (some errMsg) st = none := rfl

/-! ### Claims C6, C8: dropped requests and reported counts -/

/-- Claim C6: when the digest computation for a request fails, the worker emits
no reply for it and keeps processing the remaining requests, so the reply
stream — and hence the aggregation state built from it — is exactly the one
obtained without that request; no retry occurs. -/
theorem worker_drops_failed_request (thorough : Bool) (fs : String → Option (List Nat))
    (sha512 md5 : List Nat → List Nat) (rs1 rs2 : List FileHash) (r : FileHash)
    (h : hashRequest thorough fs sha512 md5 r = none) :
    hashingWorker thorough fs sha512 md5 (rs1 ++ r :: rs2)
        = hashingWorker thorough fs sha512 md5 (rs1 ++ rs2)
    ∧ aggFold (hashingWorker thorough fs sha512 md5 (rs1 ++ r :: rs2))
        = aggFold (hashingWorker thorough fs sha512 md5 (rs1 ++ rs2)) := by
  have hmain : hashingWorker thorough fs sha512 md5 (rs1 ++ r :: rs2)
      = hashingWorker thorough fs sha512 md5 (rs1 ++ rs2) := by
    induction rs1 with
    | nil => simp [hashingWorker, h]
    | cons x xs ih =>
      rcases hx : hashRequest thorough fs sha512 md5 x with _ | reply <;>
        simp [hashingWorker, hx, ih]
  exact ⟨hmain, by rw [hmain]⟩

/-- Witness for C6: a request whose file cannot be read is dropped from an
otherwise empty request stream. -/
theorem worker_drops_failed_request_witness :
    hashRequest false (fun _ => none) id id ⟨"x", 1, ""⟩ = none
    ∧ hashingWorker false (fun _ => none) id id ([] ++ ⟨"x", 1, ""⟩ :: [])
        = hashingWorker false (fun _ => none) id id ([] ++ [])
    ∧ aggFold (hashingWorker false (fun _ => none) id id ([] ++ ⟨"x", 1, ""⟩ :: []))
        = aggFold (hashingWorker false (fun _ => none) id id ([] ++ [])) := by
  have H := worker_drops_failed_request false (fun _ => none) id id [] [] ⟨"x", 1, ""⟩ rfl
  exact ⟨rfl, H.1, H.2⟩

/-- Counterexample to C8 as stated: running the pipeline over one eligible
300-byte file whose read fails gives hashingFiles 1 but an empty collision
table, so the reported colliding-files count (1) and duplicate count (1)
both differ from the bucket-derived values (0 and 0): with drops the
claimed equalities fail. -/
theorem reported_counts_drop_counterexample :
    runPipeline 256 false (fun _ => none) id id [⟨"f", some ⟨false, 300⟩, none⟩]
        = some (⟨1, 0, 1, [⟨"f", 300, ""⟩]⟩, ⟨[], []⟩)
    ∧ collidingFilesOf (WalkState.mk 1 0 1 [⟨"f", 300, ""⟩]).hashingFiles ⟨[], []⟩ = 1
    ∧ duplicatesOf (WalkState.mk 1 0 1 [⟨"f", 300, ""⟩]).hashingFiles ⟨[], []⟩ = 1
    ∧ totalPathsTbl (AggState.mk [] []).collisions = 0
    ∧ collidingFilesOf (WalkState.mk 1 0 1 [⟨"f", 300, ""⟩]).hashingFiles ⟨[], []⟩
        ≠ (totalPathsTbl (AggState.mk [] []).collisions : Int)
    ∧ duplicatesOf (WalkState.mk 1 0 1 [⟨"f", 300, ""⟩]).hashingFiles ⟨[], []⟩
        ≠ (totalPathsTbl (AggState.mk [] []).collisions : Int)
          - ((AggState.mk [] []).collisions).length := by
  refine ⟨by decide, by decide, by decide, by decide, by decide, by decide⟩

/-- Claim C8 as amended: provided every enqueued file produced a result (the
hashingFiles counter equals the number of replies, i.e. no file was dropped
by a read or digest error), the reported colliding-files count equals the
total number of paths in the final buckets and the reported duplicate count
equals that total minus the number of buckets. -/
theorem reported_counts_no_drop (rs : List FileHash) (hf : Int)
    (h : hf = rs.length) :
    collidingFilesOf hf (aggFold rs) = totalPathsTbl (aggFold rs).collisions
    ∧ duplicatesOf hf (aggFold rs)
        = (totalPathsTbl (aggFold rs).collisions : Int) - ((aggFold rs).collisions).length := by
  obtain ⟨_, _, hs1, _, _⟩ := aggInv_aggFold rs
  have hsum := aggCount_aggFold rs
  have hlen : totalPathsTbl (aggFold rs).singles = (aggFold rs).singles.length :=
    totalPathsTbl_eq_length hs1
  subst h
  constructor
  · simp only [collidingFilesOf]
    omega
  · simp only [duplicatesOf, collidingFilesOf]
    omega

/-- Witness for C8 amended: two same-fingerprint replies with
hashingFiles 2 report colliding-files 2, matching the single two-path
bucket. -/
theorem reported_counts_no_drop_witness :
    ((2 : Int) = ([⟨"a", 1, "h"⟩, ⟨"b", 1, "h"⟩] : List FileHash).length)
    ∧ collidingFilesOf 2 (aggFold [⟨"a", 1, "h"⟩, ⟨"b", 1, "h"⟩])
        = totalPathsTbl (aggFold [⟨"a", 1, "h"⟩, ⟨"b", 1, "h"⟩]).collisions :=
  ⟨by decide, (reported_counts_no_drop [⟨"a", 1, "h"⟩, ⟨"b", 1, "h"⟩] 2 (by decide)).1⟩
